import Mathlib

/-!
# Verification of the stacks.rs wallet module (`src/wallet.rs`)

Shallow embedding of `StacksWallet` / `StacksAccount`: the lazily memoized
account cache and the passphrase-based key vault codec
(`encrypt_key` / `from_encrypted_key`).

External cryptographic capabilities (the `ring` PBKDF2 and AES-128-GCM
primitives, BIP32 child derivation, secp256k1 key parsing) are consumed by
the wallet as opaque interfaces; they are embedded as a `CryptoPrims`
structure whose fields carry exactly the contracts the wallet code relies
on (seal/open round trip, tag length, rejection of too-short inputs).
Theorems are stated for every `CryptoPrims` instance; a concrete `toyPrims`
instance witnesses satisfiability and lets claims be evaluated on concrete
inputs.

Byte strings are embedded as `List Nat`.  Rust slice indexing that can
panic (`&data[..16]` on a short buffer) is modelled explicitly: the decoder
returns `Except VaultError _` where `VaultError.indexOutOfRange` marks a
panic, distinct from an ordinary library error `VaultError.err e`.
-/

/-- Byte strings (`&[u8]` / `Vec<u8>`). -/
abbrev Bytes := List Nat

/-- Models `str::as_bytes`: the byte encoding of a Rust string (code points;
it agrees with UTF-8 on the ASCII passphrases used in witnesses, and the
stretch primitive consumes it opaquely). -/
def strBytes (s : String) : Bytes := s.toList.map Char.toNat

/-- `ring::aead::NONCE_LEN` (96-bit AES-GCM nonce). -/
def NONCE_LEN : Nat := 12

/-- Modelled from the spec: `crate::crypto::bip32::KEY_BYTE_SIZE`, the size
of a BIP32 chain code / secp256k1 secret key (32 bytes); the module itself
is outside `src/`. -/
def KEY_BYTE_SIZE : Nat := 32

/-- `wallet.rs` line 16: the fixed derivation path constant. -/
def STX_DERIVATION_PATH : String := "m/44\x27/5757\x27/0\x27/0"

/-- Modelled from the spec (§7): the unified `crate::Error` taxonomy; the
error type itself lives outside `src/`. -/
inductive Error where
  | mnemonic
  | derivation
  | encoding
  | cryptoSetup
  | authentication
  | malformedVault
deriving DecidableEq

/-- Outcome of `from_encrypted_key`: a Rust panic from slice indexing
(`indexOutOfRange`) is distinct from an ordinary `Err` (`err e`). -/
inductive VaultError where
  | indexOutOfRange
  | err (e : Error)
deriving DecidableEq

/-- The PBKDF2 PRF selector (`ring::pbkdf2::PBKDF2_HMAC_SHA512` is the one
`wallet.rs` uses). -/
inductive PbkdfAlg where
  | hmacSha512
deriving DecidableEq

/-- Modelled from the spec: `StacksPrivateKey` (secp256k1 `SecretKey`,
external) as its 32 secret bytes. -/
structure StacksPrivateKey where
  bytes : Bytes
deriving DecidableEq

/-- `SecretKey::secret_bytes`: the raw 32-byte scalar. -/
def StacksPrivateKey.secret_bytes (k : StacksPrivateKey) : Bytes := k.bytes

/-- Modelled from the spec: `SecretKey::from_slice` fails when the input
length is not 32 bytes (the external library's scalar-range check is not
modelled; §4.5 step 4 only requires the length check). -/
def StacksPrivateKey.from_slice (l : Bytes) : Except Unit StacksPrivateKey :=
  if l.length = KEY_BYTE_SIZE then .ok ⟨l⟩ else .error ()

/-- Modelled from the spec: a public key as opaque bytes. -/
structure StacksPublicKey where
  bytes : Bytes
deriving DecidableEq

/-- Modelled from the spec (§3 RootKey): `crate::crypto::ExtendedPrivateKey`
with a secret scalar, a 32-byte chain code and a depth counter; the module
is outside `src/`, but `wallet.rs` constructs and reads exactly these three
fields. -/
structure ExtendedPrivateKey where
  private_key : StacksPrivateKey
  chain_code : Bytes
  depth : Nat
deriving DecidableEq

/-- `wallet.rs` lines 21–26: a derived account. -/
structure StacksAccount where
  index : Nat
  public_key : StacksPublicKey
  private_key : StacksPrivateKey
deriving DecidableEq

/-- `StacksAccounts = HashMap<u32, StacksAccount>`, embedded as an
association list with unique keys. -/
abbrev StacksAccounts := List (Nat × StacksAccount)

/-- `HashMap::get`. -/
def accountsGet (m : StacksAccounts) (i : Nat) : Option StacksAccount :=
  match m with
  | [] => none
  | (j, a) :: t => if j = i then some a else accountsGet t i

/-- `HashMap::insert`: replaces any existing entry at the key. -/
def accountsInsert (m : StacksAccounts) (i : Nat) (a : StacksAccount) :
    StacksAccounts :=
  match m with
  | [] => [(i, a)]
  | (j, b) :: t => if j = i then (i, a) :: t else (j, b) :: accountsInsert t i a

/-- The external cryptographic capabilities `wallet.rs` consumes, with the
contracts their providers document (`ring` PBKDF2 / AES-128-GCM, BIP32
derivation, secp256k1 public-key computation). `pbkdf2_derive` models
`ring::pbkdf2::derive` filling a caller-sized output buffer, so the result
carries its length. `seal_in_place_append_tag` appends the 16-byte GCM tag;
`open_in_place` returns the plaintext slice and rejects inputs shorter than
the tag. -/
structure CryptoPrims where
  pbkdf2_derive : PbkdfAlg → Nat → Bytes → Bytes → (L : Nat) →
    { l : Bytes // l.length = L }
  seal_in_place_append_tag : Bytes → Bytes → Bytes → Except Unit Bytes
  open_in_place : Bytes → Bytes → Bytes → Except Unit Bytes
  derive_path : ExtendedPrivateKey → String → Except Unit ExtendedPrivateKey
  child : ExtendedPrivateKey → Nat → Except Unit ExtendedPrivateKey
  public_key_of : StacksPrivateKey → StacksPublicKey
  seal_len : ∀ k n pt ct, seal_in_place_append_tag k n pt = .ok ct →
    ct.length = pt.length + 16
  open_correct : ∀ k n pt ct, seal_in_place_append_tag k n pt = .ok ct →
    open_in_place k n ct = .ok pt
  open_short : ∀ k n ct, ct.length < 16 → open_in_place k n ct = .error ()

/-- `ring::aead::UnboundKey::new(&AES_128_GCM, key)`: succeeds exactly when
the key is 16 bytes (AES-128). -/
def newUnboundKey (k : Bytes) : Except Unit Bytes :=
  if k.length = 16 then .ok k else .error ()

/-- `wallet.rs` lines 39–44 (`StacksAccount::derive`): fixed path, then the
child at `index`, then its public key; derivation errors propagate. -/
def StacksAccount.derive (prims : CryptoPrims) (root : ExtendedPrivateKey)
    (index : Nat) : Except Error StacksAccount :=
  match prims.derive_path root STX_DERIVATION_PATH with
  | .error _ => .error .derivation
  | .ok sub =>
    match prims.child sub index with
    | .error _ => .error .derivation
    | .ok c => .ok ⟨index, prims.public_key_of c.private_key, c.private_key⟩

/-- `wallet.rs` lines 55–59: the wallet aggregate. -/
structure StacksWallet where
  root_key : ExtendedPrivateKey
  accounts : StacksAccounts
deriving DecidableEq

/-- `wallet.rs` lines 89–91 (`set_account`): unconditional cache upsert. -/
def StacksWallet.set_account (w : StacksWallet) (index : Nat)
    (account : StacksAccount) : StacksWallet :=
  { w with accounts := accountsInsert w.accounts index account }

/-- `wallet.rs` lines 78–86 (`get_account`): cache hit returns the stored
account; on a miss, derive, insert, return. The `&mut self` receiver is
threaded explicitly: the second component is the wallet after the call,
returned unchanged on the hit and error paths. -/
def StacksWallet.get_account (prims : CryptoPrims) (w : StacksWallet)
    (index : Nat) : Except Error StacksAccount × StacksWallet :=
  match accountsGet w.accounts index with
  | some account => (.ok account, w)
  | none =>
    match StacksAccount.derive prims w.root_key index with
    | .error e => (.error e, w)
    | .ok account => (.ok account, w.set_account index account)

/-- Number of cached accounts (`HashMap::len`). -/
def StacksWallet.numAccounts (w : StacksWallet) : Nat := w.accounts.length

/-- `wallet.rs` lines 101–114 inside `encrypt_key`: stretch the passphrase
with the salt (PBKDF2-HMAC-SHA512, 100 000 iterations, `16 + NONCE_LEN`
output bytes) and split into the AES key and the GCM nonce. -/
def encryptKeyStretch (prims : CryptoPrims) (passphrase : String)
    (salt : Bytes) : Bytes × Bytes :=
  let key_and_nonce :=
    (prims.pbkdf2_derive .hmacSha512 100000 salt (strBytes passphrase)
      (16 + NONCE_LEN)).val
  (key_and_nonce.take 16, key_and_nonce.drop 16)

/-- `wallet.rs` lines 139–152 inside `from_encrypted_key`: the identical
stretch-and-split computation, written out as the decoder performs it. -/
def fromEncryptedKeyStretch (prims : CryptoPrims) (passphrase : String)
    (salt : Bytes) : Bytes × Bytes :=
  let key_and_nonce :=
    (prims.pbkdf2_derive .hmacSha512 100000 salt (strBytes passphrase)
      (16 + NONCE_LEN)).val
  (key_and_nonce.take 16, key_and_nonce.drop 16)

/-- `wallet.rs` lines 94–131 (`encrypt_key`). The 16-byte salt drawn from
`rand::thread_rng` on lines 95–98 is passed in as the `salt` argument.
Receiver is `&self`: no wallet is returned because none is modified. -/
def StacksWallet.encrypt_key (prims : CryptoPrims) (w : StacksWallet)
    (passphrase : String) (salt : Bytes) : Except Error Bytes :=
  let kn := encryptKeyStretch prims passphrase salt
  match newUnboundKey kn.1 with
  | .error _ => .error .cryptoSetup
  | .ok key =>
    let data := w.root_key.chain_code ++ w.root_key.private_key.secret_bytes
    match prims.seal_in_place_append_tag key kn.2 data with
    | .error _ => .error .cryptoSetup
    | .ok sealed => .ok (salt ++ sealed)

/-- `wallet.rs` lines 134–170 (`from_encrypted_key`). `&data[..16]` /
`&data[16..]` panic when `data` is shorter than 16 bytes
(`indexOutOfRange`); after `open_in_place` the vec keeps its ciphertext
length, the plaintext occupying its front, so `buf` is the plaintext
followed by the untouched tag region, and the source's `data[..32]` and
`data[32 .. len - 16]` slices (with their own panic bounds) read from it.
The `try_into` on the 32-byte slice can no longer fail once the bounds
check passed, matching the source's unreachable `?`. -/
def StacksWallet.from_encrypted_key (prims : CryptoPrims)
    (passphrase : String) (data : Bytes) : Except VaultError StacksWallet :=
  if data.length < 16 then .error .indexOutOfRange
  else
    let salt := data.take 16
    let ciphertext := data.drop 16
    let kn := fromEncryptedKeyStretch prims passphrase salt
    match newUnboundKey kn.1 with
    | .error _ => .error (.err .cryptoSetup)
    | .ok key =>
      match prims.open_in_place key kn.2 ciphertext with
      | .error _ => .error (.err .authentication)
      | .ok plaintext =>
        let buf := plaintext ++ ciphertext.drop plaintext.length
        if buf.length < KEY_BYTE_SIZE then .error .indexOutOfRange
        else if buf.length - 16 < KEY_BYTE_SIZE then .error .indexOutOfRange
        else
          let chain_code := buf.take KEY_BYTE_SIZE
          match StacksPrivateKey.from_slice
              ((buf.take (buf.length - 16)).drop KEY_BYTE_SIZE) with
          | .error _ => .error (.err .malformedVault)
          | .ok private_key =>
            .ok { root_key := { private_key, chain_code, depth := 0 },
                  accounts := [] }

/-! ## A concrete instance of the external primitives

Used to exhibit witnesses: a toy stretch and a toy authenticated cipher
satisfying the interface contracts (`seal`/`open` round trip, 16-byte tag,
rejection of inputs shorter than the tag).  These model nothing from the
repository; they only instantiate `CryptoPrims`. -/

/-- Toy key stretch: passphrase and salt bytes, padded to the requested
length. -/
def toyStretch (salt pass : Bytes) (L : Nat) : { l : Bytes // l.length = L } :=
  ⟨(pass ++ salt ++ List.replicate L 7).take L, by
    simp [List.length_take]
    omega⟩

/-- Toy authentication tag: the key, padded to 16 bytes. -/
def toyTag (k : Bytes) : Bytes := (k ++ List.replicate 16 0).take 16

theorem toyTag_length (k : Bytes) : (toyTag k).length = 16 := by
  simp [toyTag, List.length_take]

/-- Toy seal: shift every plaintext byte up by one and append the tag. -/
def toySeal (k _n pt : Bytes) : Except Unit Bytes :=
  .ok (pt.map (· + 1) ++ toyTag k)

/-- Toy open: check the trailing 16 bytes against the tag for this key,
then shift the leading bytes back down. -/
def toyOpen (k _n ct : Bytes) : Except Unit Bytes :=
  if ct.length < 16 then .error ()
  else if ct.drop (ct.length - 16) = toyTag k then
    .ok ((ct.take (ct.length - 16)).map (· - 1))
  else .error ()

theorem toySeal_length (k n pt ct : Bytes) (h : toySeal k n pt = .ok ct) :
    ct.length = pt.length + 16 := by
  simp only [toySeal, Except.ok.injEq] at h
  subst h
  simp [toyTag_length]

theorem toyOpen_toySeal (k n pt ct : Bytes) (h : toySeal k n pt = .ok ct) :
    toyOpen k n ct = .ok pt := by
  simp only [toySeal, Except.ok.injEq] at h
  subst h
  have hm : (pt.map (· + 1)).length = pt.length := by simp
  have hlen : (pt.map (· + 1) ++ toyTag k).length = pt.length + 16 := by
    simp [toyTag_length]
  rw [toyOpen, hlen, if_neg (by omega), Nat.add_sub_cancel,
    List.drop_left' hm, if_pos rfl, List.take_left' hm]
  simp [List.map_map, Function.comp_def]

theorem toyOpen_short (k n ct : Bytes) (h : ct.length < 16) :
    toyOpen k n ct = .error () := by
  rw [toyOpen, if_pos h]

/-- The toy instance of the external capabilities. -/
def toyPrims : CryptoPrims where
  pbkdf2_derive := fun _ _ salt pass L => toyStretch salt pass L
  seal_in_place_append_tag := toySeal
  open_in_place := toyOpen
  derive_path := fun k _ => .ok k
  child := fun k _ => .ok k
  public_key_of := fun sk => ⟨sk.bytes⟩
  seal_len := toySeal_length
  open_correct := fun k n pt ct h => toyOpen_toySeal k n pt ct h
  open_short := toyOpen_short

/-- A toy instance whose path derivation always fails, to exercise the
`get_account` failure path. -/
def toyPrimsFail : CryptoPrims where
  pbkdf2_derive := fun _ _ salt pass L => toyStretch salt pass L
  seal_in_place_append_tag := toySeal
  open_in_place := toyOpen
  derive_path := fun _ _ => .error ()
  child := fun k _ => .ok k
  public_key_of := fun sk => ⟨sk.bytes⟩
  seal_len := toySeal_length
  open_correct := fun k n pt ct h => toyOpen_toySeal k n pt ct h
  open_short := toyOpen_short

/-! ## Helper lemmas -/

theorem accountsGet_insert_self (m : StacksAccounts) (i : Nat)
    (a : StacksAccount) : accountsGet (accountsInsert m i a) i = some a := by
  induction m with
  | nil => simp [accountsInsert, accountsGet]
  | cons hd t ih =>
    obtain ⟨j, b⟩ := hd
    by_cases h : j = i
    · simp [accountsInsert, h, accountsGet]
    · simp [accountsInsert, h, accountsGet, ih]

theorem accountsGet_insert_ne (m : StacksAccounts) (i j : Nat)
    (a : StacksAccount) (h : j ≠ i) :
    accountsGet (accountsInsert m i a) j = accountsGet m j := by
  induction m with
  | nil => simp [accountsInsert, accountsGet, Ne.symm h]
  | cons hd t ih =>
    obtain ⟨l, b⟩ := hd
    by_cases hl : l = i
    · subst hl
      simp [accountsInsert, accountsGet, Ne.symm h]
    · simp [accountsInsert, hl, accountsGet, ih]

/-- The two stretch computations are the same function (`wallet.rs` lines
104–110 and 142–148 are verbatim copies of each other). -/
theorem fromEncryptedKeyStretch_eq (prims : CryptoPrims) (p : String)
    (salt : Bytes) :
    fromEncryptedKeyStretch prims p salt = encryptKeyStretch prims p salt :=
  rfl

theorem encryptKeyStretch_fst_length (prims : CryptoPrims) (p : String)
    (salt : Bytes) : ((encryptKeyStretch prims p salt).1).length = 16 := by
  simp [encryptKeyStretch, List.length_take,
    (prims.pbkdf2_derive .hmacSha512 100000 salt (strBytes p)
      (16 + NONCE_LEN)).property]

theorem encryptKeyStretch_snd_length (prims : CryptoPrims) (p : String)
    (salt : Bytes) :
    ((encryptKeyStretch prims p salt).2).length = NONCE_LEN := by
  simp [encryptKeyStretch, List.length_drop,
    (prims.pbkdf2_derive .hmacSha512 100000 salt (strBytes p)
      (16 + NONCE_LEN)).property]

theorem newUnboundKey_stretch (prims : CryptoPrims) (p : String)
    (salt : Bytes) :
    newUnboundKey (encryptKeyStretch prims p salt).1 =
      .ok (encryptKeyStretch prims p salt).1 := by
  rw [newUnboundKey, if_pos (encryptKeyStretch_fst_length prims p salt)]

/-- A successful `encrypt_key` is the salt followed by the sealed
serialization of the root key. -/
theorem encrypt_key_ok_elim {prims : CryptoPrims} {w : StacksWallet}
    {p : String} {salt out : Bytes}
    (h : StacksWallet.encrypt_key prims w p salt = .ok out) :
    ∃ sealed,
      prims.seal_in_place_append_tag (encryptKeyStretch prims p salt).1
        (encryptKeyStretch prims p salt).2
        (w.root_key.chain_code ++ w.root_key.private_key.secret_bytes) =
        .ok sealed ∧
      out = salt ++ sealed := by
  simp only [StacksWallet.encrypt_key, newUnboundKey_stretch] at h
  cases hseal : prims.seal_in_place_append_tag
      (encryptKeyStretch prims p salt).1 (encryptKeyStretch prims p salt).2
      (w.root_key.chain_code ++ w.root_key.private_key.secret_bytes) with
  | error e => rw [hseal] at h; exact absurd h (by simp)
  | ok sealed =>
    rw [hseal] at h
    simp only [Except.ok.injEq] at h
    exact ⟨sealed, rfl, h.symm⟩

/-! ## Concrete sample values for witnesses -/

/-- A sample root key: depth 5, distinct 32-byte chain code and secret. -/
def rk0 : ExtendedPrivateKey :=
  { private_key := ⟨List.replicate 32 2⟩, chain_code := List.replicate 32 1,
    depth := 5 }

/-- A sample cached account (stored at index 7). -/
def acct7 : StacksAccount := ⟨7, ⟨[9]⟩, ⟨[9]⟩⟩

/-- A sample wallet with a non-empty cache. -/
def w0 : StacksWallet := ⟨rk0, [(7, acct7)]⟩

/-- A fixed 16-byte salt (the modelled randomness draw). -/
def salt0 : Bytes := List.replicate 16 3

/-- The vault produced by encrypting `w0` under passphrase `pw` with the
toy primitives. -/
def c1Out : Bytes :=
  (StacksWallet.encrypt_key toyPrims w0 "pw" salt0).toOption.getD []

/-- The wallet the round trip is expected to return: same key material,
depth reset to 0, empty cache. -/
def w0Fresh : StacksWallet :=
  ⟨⟨rk0.private_key, rk0.chain_code, 0⟩, []⟩

/-! ## Claims -/

/-- C1: decrypting the encryption of a wallet under the same passphrase
succeeds and returns a wallet with the same chain-code bytes and the same
private-key bytes, root-key depth 0, and an empty account cache, whatever
the cache held at encode time. -/
theorem vault_round_trip (prims : CryptoPrims) (w : StacksWallet)
    (p : String) (salt out : Bytes)
    (hsalt : salt.length = 16)
    (hcc : w.root_key.chain_code.length = KEY_BYTE_SIZE)
    (hsk : w.root_key.private_key.bytes.length = KEY_BYTE_SIZE)
    (henc : StacksWallet.encrypt_key prims w p salt = .ok out) :
    StacksWallet.from_encrypted_key prims p out =
      .ok { root_key := { private_key := w.root_key.private_key,
                          chain_code := w.root_key.chain_code, depth := 0 },
            accounts := [] } := by
  obtain ⟨sealed, hseal, hout⟩ := encrypt_key_ok_elim henc
  subst hout
  set cc := w.root_key.chain_code with hcceq
  set sk := w.root_key.private_key.secret_bytes with hskeq
  have hsk' : sk.length = 32 := hsk
  have hcc' : cc.length = 32 := hcc
  have hcs : (cc ++ sk).length = 64 := by
    simp [List.length_append, hcc', hsk']
  have hsealed : sealed.length = 80 := by
    have := prims.seal_len _ _ _ _ hseal
    omega
  have hdlen : (salt ++ sealed).length = 96 := by
    simp [List.length_append, hsalt, hsealed]
  have hopen : prims.open_in_place (encryptKeyStretch prims p salt).1
      (encryptKeyStretch prims p salt).2 sealed = .ok (cc ++ sk) :=
    prims.open_correct _ _ _ _ hseal
  simp only [StacksWallet.from_encrypted_key, hdlen]
  rw [if_neg (by omega), List.take_left' hsalt, List.drop_left' hsalt,
    fromEncryptedKeyStretch_eq, newUnboundKey_stretch]
  simp only [hopen]
  have hbuf : ((cc ++ sk) ++ sealed.drop (cc ++ sk).length).length = 80 := by
    simp only [List.length_append, List.length_drop]
    omega
  simp only [hbuf]
  rw [if_neg (by norm_num [KEY_BYTE_SIZE]),
    if_neg (by norm_num [KEY_BYTE_SIZE])]
  have h64 : (80 : Nat) - 16 = 64 := by norm_num
  have hskK : sk.length = KEY_BYTE_SIZE := hsk
  rw [h64, List.take_left' hcs, List.append_assoc, List.take_left' hcc,
    List.drop_left' hcc, StacksPrivateKey.from_slice, if_pos hskK]
  rfl

/-- C1 witness: the round trip evaluated on the sample wallet (non-empty
cache, depth 5) under the toy primitives. -/
theorem vault_round_trip_witness :
    StacksWallet.from_encrypted_key toyPrims "pw" c1Out = .ok w0Fresh :=
  vault_round_trip toyPrims w0 "pw" salt0 c1Out (by decide) (by decide)
    (by decide) rfl

/-- C2 counterexample: on empty input `from_encrypted_key` hits the
out-of-bounds slice `&data[..16]` and panics; the outcome is not an `Err`
of the library error type, refuting the claim for `data.len() < 16`. -/
theorem from_encrypted_key_empty_input_panics :
    StacksWallet.from_encrypted_key toyPrims "x" [] =
      .error .indexOutOfRange ∧
    VaultError.indexOutOfRange ≠ VaultError.err Error.malformedVault ∧
    VaultError.indexOutOfRange ≠ VaultError.err Error.authentication :=
  ⟨rfl, by decide, by decide⟩

/-- C2 (amended): with `16 ≤ data.len() < 16 + tag_len` the decoder
returns an authentication `Err` (the cipher rejects ciphertext shorter
than its tag); with `data.len() < 16` the slice indexing panics instead of
returning an `Err`. -/
theorem from_encrypted_key_short_input (prims : CryptoPrims) (p : String)
    (data : Bytes) :
    (data.length < 16 →
      StacksWallet.from_encrypted_key prims p data =
        .error .indexOutOfRange) ∧
    (16 ≤ data.length → data.length < 32 →
      StacksWallet.from_encrypted_key prims p data =
        .error (.err .authentication)) := by
  constructor
  · intro h
    simp only [StacksWallet.from_encrypted_key]
    rw [if_pos h]
  · intro h1 h2
    have hct : (data.drop 16).length < 16 := by
      simp only [List.length_drop]
      omega
    have hopen := prims.open_short
      (encryptKeyStretch prims p (data.take 16)).1
      (encryptKeyStretch prims p (data.take 16)).2 (data.drop 16) hct
    simp only [StacksWallet.from_encrypted_key]
    rw [if_neg (by omega), fromEncryptedKeyStretch_eq, newUnboundKey_stretch]
    simp only [hopen]

/-- C2 witness: a 20-byte vault fails with an authentication error and a
1-byte vault panics, evaluated with the toy primitives. -/
theorem from_encrypted_key_short_input_witness :
    StacksWallet.from_encrypted_key toyPrims "x" (List.replicate 20 0) =
      .error (.err .authentication) ∧
    StacksWallet.from_encrypted_key toyPrims "x" [0] =
      .error .indexOutOfRange :=
  ⟨(from_encrypted_key_short_input toyPrims "x" (List.replicate 20 0)).2
      (by decide) (by decide),
   (from_encrypted_key_short_input toyPrims "x" [0]).1 (by decide)⟩

/-- The vault produced by encrypting `w0` under passphrase `a` with the toy
primitives (decrypted with passphrase `b` in the C3 witness). -/
def c3Out : Bytes :=
  (StacksWallet.encrypt_key toyPrims w0 "a" salt0).toOption.getD []

/-- C3: when the cipher rejects the ciphertext under the key/nonce
stretched from the second passphrase (the external AEAD contract for a
wrong passphrase), `from_encrypted_key` fails with an authentication error
and never returns a wallet. -/
theorem wrong_passphrase_rejected (prims : CryptoPrims) (w : StacksWallet)
    (p1 p2 : String) (salt out : Bytes)
    (hsalt : salt.length = 16)
    (henc : StacksWallet.encrypt_key prims w p1 salt = .ok out)
    (hrej : prims.open_in_place (encryptKeyStretch prims p2 salt).1
      (encryptKeyStretch prims p2 salt).2 (out.drop 16) = .error ()) :
    StacksWallet.from_encrypted_key prims p2 out =
      .error (.err .authentication) ∧
    ∀ w2, StacksWallet.from_encrypted_key prims p2 out ≠ .ok w2 := by
  obtain ⟨sealed, hseal, hout⟩ := encrypt_key_ok_elim henc
  subst hout
  rw [List.drop_left' hsalt] at hrej
  have hlen : 16 ≤ (salt ++ sealed).length := by
    simp only [List.length_append]
    omega
  have h1 : StacksWallet.from_encrypted_key prims p2 (salt ++ sealed) =
      .error (.err .authentication) := by
    simp only [StacksWallet.from_encrypted_key]
    rw [if_neg (by omega), List.take_left' hsalt, List.drop_left' hsalt,
      fromEncryptedKeyStretch_eq, newUnboundKey_stretch]
    simp only [hrej]
  exact ⟨h1, fun w2 hc => by rw [h1] at hc; exact absurd hc (by simp)⟩

/-- C3 witness: encrypt under `a`, decrypt under `b`, with the toy
primitives and the sample wallet; the result is an authentication error. -/
theorem wrong_passphrase_rejected_witness :
    StacksWallet.from_encrypted_key toyPrims "b" c3Out =
      .error (.err .authentication) :=
  (wrong_passphrase_rejected toyPrims w0 "a" "b" salt0 c3Out (by decide)
    rfl rfl).1

/-- Evaluation of `get_account` on a cache hit. -/
theorem get_account_hit (prims : CryptoPrims) {w : StacksWallet} {i : Nat}
    {a : StacksAccount} (h : accountsGet w.accounts i = some a) :
    StacksWallet.get_account prims w i = (.ok a, w) := by
  simp only [StacksWallet.get_account, h]

/-- Evaluation of `get_account` on a cache miss with successful
derivation. -/
theorem get_account_miss_ok (prims : CryptoPrims) {w : StacksWallet}
    {i : Nat} {b : StacksAccount} (hg : accountsGet w.accounts i = none)
    (hd : StacksAccount.derive prims w.root_key i = .ok b) :
    StacksWallet.get_account prims w i = (.ok b, w.set_account i b) := by
  simp only [StacksWallet.get_account, hg, hd]

/-- Evaluation of `get_account` on a cache miss with failing derivation. -/
theorem get_account_miss_err (prims : CryptoPrims) {w : StacksWallet}
    {i : Nat} {e : Error} (hg : accountsGet w.accounts i = none)
    (hd : StacksAccount.derive prims w.root_key i = .error e) :
    StacksWallet.get_account prims w i = (.error e, w) := by
  simp only [StacksWallet.get_account, hg, hd]

/-- A successfully derived account carries the requested index. -/
theorem derive_ok_index {prims : CryptoPrims} {root : ExtendedPrivateKey}
    {i : Nat} {a : StacksAccount}
    (h : StacksAccount.derive prims root i = .ok a) : a.index = i := by
  cases h1 : prims.derive_path root STX_DERIVATION_PATH with
  | error e =>
    simp only [StacksAccount.derive, h1] at h
    exact absurd h (by simp)
  | ok sub =>
    cases h2 : prims.child sub i with
    | error e =>
      simp only [StacksAccount.derive, h1, h2] at h
      exact absurd h (by simp)
    | ok c =>
      simp only [StacksAccount.derive, h1, h2, Except.ok.injEq] at h
      rw [← h]

/-- C4: a successful `get_account i` is idempotent: repeating the call on
the resulting wallet returns the same account and the same wallet, and the
cache entry count does not change. -/
theorem get_account_idempotent (prims : CryptoPrims) (w : StacksWallet)
    (i : Nat) (a : StacksAccount) (w1 : StacksWallet)
    (h : StacksWallet.get_account prims w i = (.ok a, w1)) :
    StacksWallet.get_account prims w1 i = (.ok a, w1) ∧
    (StacksWallet.get_account prims w1 i).2.numAccounts = w1.numAccounts := by
  have hget : accountsGet w1.accounts i = some a := by
    cases hg : accountsGet w.accounts i with
    | some b =>
      rw [get_account_hit prims hg] at h
      simp only [Prod.mk.injEq, Except.ok.injEq] at h
      obtain ⟨hba, hww⟩ := h
      subst hba
      subst hww
      exact hg
    | none =>
      cases hd : StacksAccount.derive prims w.root_key i with
      | error e =>
        rw [get_account_miss_err prims hg hd] at h
        exact absurd h (by simp)
      | ok b =>
        rw [get_account_miss_ok prims hg hd] at h
        simp only [Prod.mk.injEq, Except.ok.injEq] at h
        obtain ⟨hba, hww⟩ := h
        subst hba
        subst hww
        exact accountsGet_insert_self w.accounts i b
  have hrepeat : StacksWallet.get_account prims w1 i = (.ok a, w1) :=
    get_account_hit prims hget
  exact ⟨hrepeat, by rw [hrepeat]⟩

/-- C5: when `get_account` fails, the wallet — in particular its account
cache — is exactly as it was before the call. -/
theorem get_account_error_no_mutation (prims : CryptoPrims)
    (w : StacksWallet) (i : Nat) (e : Error)
    (h : (StacksWallet.get_account prims w i).1 = .error e) :
    StacksWallet.get_account prims w i = (.error e, w) ∧
    (StacksWallet.get_account prims w i).2.accounts = w.accounts := by
  have h1 : StacksWallet.get_account prims w i = (.error e, w) := by
    cases hg : accountsGet w.accounts i with
    | some b =>
      rw [get_account_hit prims hg] at h
      exact absurd h (by simp)
    | none =>
      cases hd : StacksAccount.derive prims w.root_key i with
      | error e2 =>
        rw [get_account_miss_err prims hg hd] at h
        simp only [Except.error.injEq] at h
        subst h
        exact get_account_miss_err prims hg hd
      | ok b =>
        rw [get_account_miss_ok prims hg hd] at h
        exact absurd h (by simp)
  exact ⟨h1, by rw [h1]⟩

/-- C9: a successfully derived account carries the requested index, and
`get_account` preserves the invariant that every cache entry at key `j`
holds an account whose `index` field is `j`. -/
theorem account_index_invariant (prims : CryptoPrims) (w : StacksWallet)
    (i : Nat)
    (hw : ∀ j a, accountsGet w.accounts j = some a → a.index = j) :
    (∀ root a, StacksAccount.derive prims root i = .ok a → a.index = i) ∧
    (∀ a, (StacksWallet.get_account prims w i).1 = .ok a → a.index = i) ∧
    (∀ j a, accountsGet (StacksWallet.get_account prims w i).2.accounts j =
      some a → a.index = j) := by
  refine ⟨fun root a h => derive_ok_index h, ?_⟩
  cases hg : accountsGet w.accounts i with
  | some b =>
    rw [get_account_hit prims hg]
    refine ⟨?_, ?_⟩
    · intro a ha
      simp only [Except.ok.injEq] at ha
      subst ha
      exact hw i b hg
    · intro j a hja
      exact hw j a hja
  | none =>
    cases hd : StacksAccount.derive prims w.root_key i with
    | error e =>
      rw [get_account_miss_err prims hg hd]
      refine ⟨?_, ?_⟩
      · intro a ha
        exact absurd ha (by simp)
      · intro j a hja
        exact hw j a hja
    | ok b =>
      have hbi : b.index = i := derive_ok_index hd
      rw [get_account_miss_ok prims hg hd]
      refine ⟨?_, ?_⟩
      · intro a ha
        simp only [Except.ok.injEq] at ha
        subst ha
        exact hbi
      · intro j a hja
        simp only [StacksWallet.set_account] at hja
        by_cases hji : j = i
        · subst hji
          rw [accountsGet_insert_self] at hja
          cases hja
          exact hbi
        · rw [accountsGet_insert_ne _ _ _ _ hji] at hja
          exact hw j a hja

/-- A sample wallet with an empty cache. -/
def wEmpty : StacksWallet := ⟨rk0, []⟩

/-- The account the toy derivation produces at index 0 from `rk0`. -/
def acct0 : StacksAccount :=
  ⟨0, ⟨List.replicate 32 2⟩, ⟨List.replicate 32 2⟩⟩

/-- `wEmpty` after caching `acct0` at index 0. -/
def wAfter : StacksWallet := ⟨rk0, [(0, acct0)]⟩

/-- C4 witness: a first `get_account 0` on the empty sample wallet yields
`(acct0, wAfter)`; the repeated call returns the same pair and the count
is unchanged. -/
theorem get_account_idempotent_witness :
    StacksWallet.get_account toyPrims wAfter 0 = (.ok acct0, wAfter) ∧
    (StacksWallet.get_account toyPrims wAfter 0).2.numAccounts =
      wAfter.numAccounts :=
  get_account_idempotent toyPrims wEmpty 0 acct0 wAfter rfl

/-- C5 witness: with the failing toy derivation, `get_account 0` errors
and leaves the wallet untouched. -/
theorem get_account_error_no_mutation_witness :
    StacksWallet.get_account toyPrimsFail wEmpty 0 =
      (.error .derivation, wEmpty) ∧
    (StacksWallet.get_account toyPrimsFail wEmpty 0).2.accounts =
      wEmpty.accounts :=
  get_account_error_no_mutation toyPrimsFail wEmpty 0 .derivation rfl

/-- C9 witness: the account produced by `get_account 0` on the empty
sample wallet carries index 0. -/
theorem account_index_invariant_witness : acct0.index = 0 :=
  (account_index_invariant toyPrims wEmpty 0
      (fun j a h => by simp [wEmpty, accountsGet] at h)).2.1 acct0 rfl

/-- Models the `&self` method call of `encrypt_key`: a shared borrow, so
the receiver after the call is the receiver unchanged. -/
def StacksWallet.encrypt_key_call (prims : CryptoPrims) (w : StacksWallet)
    (passphrase : String) (salt : Bytes) :
    Except Error Bytes × StacksWallet :=
  (StacksWallet.encrypt_key prims w passphrase salt, w)

/-- C6: `encrypt_key` does not mutate the wallet: after the call the
receiver has the same root key and the same cache (every entry and the
count), and the output depends on the wallet only through its root key. -/
theorem encrypt_key_no_mutation (prims : CryptoPrims) (w : StacksWallet)
    (p : String) (salt : Bytes) (acc2 : StacksAccounts) :
    (StacksWallet.encrypt_key_call prims w p salt).2.root_key = w.root_key ∧
    (StacksWallet.encrypt_key_call prims w p salt).2.accounts = w.accounts ∧
    StacksWallet.encrypt_key prims ⟨w.root_key, acc2⟩ p salt =
      StacksWallet.encrypt_key prims w p salt :=
  ⟨rfl, rfl, rfl⟩

/-- C7: both codec directions stretch the passphrase with the identical
function and parameters — PBKDF2-HMAC-SHA512, 100 000 iterations, output
`16 + NONCE_LEN` bytes split as key `[0..16]` and nonce `[16..]` — so for
equal passphrase and salt they compute the same key/nonce pair. -/
theorem stretch_parameters_identical (prims : CryptoPrims) (p : String)
    (salt : Bytes) :
    encryptKeyStretch prims p salt = fromEncryptedKeyStretch prims p salt ∧
    encryptKeyStretch prims p salt =
      ((prims.pbkdf2_derive PbkdfAlg.hmacSha512 100000 salt (strBytes p)
          (16 + NONCE_LEN)).val.take 16,
       (prims.pbkdf2_derive PbkdfAlg.hmacSha512 100000 salt (strBytes p)
          (16 + NONCE_LEN)).val.drop 16) ∧
    ((encryptKeyStretch prims p salt).1).length = 16 ∧
    ((encryptKeyStretch prims p salt).2).length = NONCE_LEN :=
  ⟨rfl, rfl, encryptKeyStretch_fst_length prims p salt,
    encryptKeyStretch_snd_length prims p salt⟩

/-- C8: a successful `encrypt_key` output is exactly the salt followed by
the sealed `chain_code ‖ private_key` plaintext with the 16-byte tag
appended — no length prefix, version byte, or magic number. -/
theorem encrypt_output_layout (prims : CryptoPrims) (w : StacksWallet)
    (p : String) (salt out : Bytes)
    (henc : StacksWallet.encrypt_key prims w p salt = .ok out) :
    ∃ sealed,
      prims.seal_in_place_append_tag (encryptKeyStretch prims p salt).1
        (encryptKeyStretch prims p salt).2
        (w.root_key.chain_code ++ w.root_key.private_key.secret_bytes) =
        .ok sealed ∧
      out = salt ++ sealed ∧
      sealed.length =
        (w.root_key.chain_code ++
          w.root_key.private_key.secret_bytes).length + 16 := by
  obtain ⟨sealed, hseal, hout⟩ := encrypt_key_ok_elim henc
  exact ⟨sealed, hseal, hout, prims.seal_len _ _ _ _ hseal⟩

/-- C8 witness: the layout evaluated on the sample wallet with the toy
primitives. -/
theorem encrypt_output_layout_witness :
    ∃ sealed,
      toyPrims.seal_in_place_append_tag
        (encryptKeyStretch toyPrims "pw" salt0).1
        (encryptKeyStretch toyPrims "pw" salt0).2
        (w0.root_key.chain_code ++ w0.root_key.private_key.secret_bytes) =
        .ok sealed ∧
      c1Out = salt0 ++ sealed ∧
      sealed.length =
        (w0.root_key.chain_code ++
          w0.root_key.private_key.secret_bytes).length + 16 :=
  encrypt_output_layout toyPrims w0 "pw" salt0 c1Out rfl

/-- C10: a successful `encrypt_key` output is exactly 96 bytes: 16-byte
salt, 64 bytes of ciphertext covering the 32-byte chain code and the
32-byte secret key, and the 16-byte tag. -/
theorem encrypt_output_length (prims : CryptoPrims) (w : StacksWallet)
    (p : String) (salt out : Bytes)
    (hsalt : salt.length = 16)
    (hcc : w.root_key.chain_code.length = KEY_BYTE_SIZE)
    (hsk : w.root_key.private_key.bytes.length = KEY_BYTE_SIZE)
    (henc : StacksWallet.encrypt_key prims w p salt = .ok out) :
    out.length = 96 := by
  obtain ⟨sealed, hseal, hout⟩ := encrypt_key_ok_elim henc
  subst hout
  have h1 := prims.seal_len _ _ _ _ hseal
  have hccK : w.root_key.chain_code.length = 32 := hcc
  have hskK : w.root_key.private_key.secret_bytes.length = 32 := hsk
  simp only [List.length_append] at h1 ⊢
  omega

/-- C10 witness: the sample vault is 96 bytes long. -/
theorem encrypt_output_length_witness : c1Out.length = 96 :=
  encrypt_output_length toyPrims w0 "pw" salt0 c1Out (by decide) (by decide)
    (by decide) rfl
